import Mathlib

/-!
Shallow embedding of the JOS-style kernel monitor (`kern/monitor.c`): the
hex address parser (`char2int`, `hexaddr2decaddr`), the single-address and
ranged page-mapping reporter (`showmappings`, `mon_showmappings`), the
frame-pointer stack unwinder (`mon_backtrace`), and the command tokenizer
and dispatcher (`runcmd`).

Machine integers are modelled as `Nat` with explicit reduction modulo
`2 ^ 32` wherever 32-bit overflow can occur.  External collaborators
(page-table lookup, debug-info resolver, the memory read behind the frame
walk, `read_ebp`) are parameters of the embedding, as they live outside
this file of the repository.  The potentially nonterminating loops
(the backtrace walk and the ranged sweep) are embedded with an explicit
fuel parameter: `none` means the loop has not finished within the given
fuel, and termination of the C loop corresponds to `∃ fuel, ... = some _`.
-/

set_option maxRecDepth 8000

namespace Monitor

/-- Page size: `PGSIZE` from `inc/mmu.h` (4 KiB pages). -/
def PGSIZE : Nat := 4096

/-- Maximum number of argument slots in `runcmd` (`#define MAXARGS 16`). -/
def MAXARGS : Nat := 16

/-! ### Address parser: `char2int` and `hexaddr2decaddr` -/

/-- Source function `char2int` from `kern/monitor.c`: `48`/`57` are the codes of `'0'`/`'9'`,
`65`/`70` those of `'A'`/`'F'`, `97`/`102` those of `'a'`/`'f'`; every other
character falls through to `return 0`. -/
def char2int (c : Char) : Nat :=
  if 48 ≤ c.toNat ∧ c.toNat ≤ 57 then c.toNat - 48
  else if 65 ≤ c.toNat ∧ c.toNat ≤ 70 then c.toNat - 55
  else if 97 ≤ c.toNat ∧ c.toNat ≤ 102 then c.toNat - 87
  else 0

/-- The accumulation loop of `hexaddr2decaddr`: digit `i` (from the left, out
of `len`) contributes `char2int c` shifted left by `4 * (len - i - 1)` bits,
summed in 32-bit machine arithmetic (the C `int` additions wrap mod `2^32`;
the `uint32_t` view of the result is what both call sites use). -/
def hexaddr2decaddrAux : List Char → Nat
  | [] => 0
  | c :: cs => (char2int c * 2 ^ (4 * cs.length) % 2 ^ 32 + hexaddr2decaddrAux cs) % 2 ^ 32

/-- Source function `hexaddr2decaddr` from `kern/monitor.c`: skip the two-character prefix
(`newaddr = hexaddr + 2`) and accumulate the remaining characters as hex
digits, most significant first. -/
def hexaddr2decaddr (hexaddr : List Char) : Nat :=
  hexaddr2decaddrAux (hexaddr.drop 2)

/-- Lowercase hex digit character for a value `d < 16`. -/
def hexCharLower (d : Nat) : Char :=
  if d < 10 then Char.ofNat (48 + d) else Char.ofNat (87 + d)

/-- Uppercase hex digit character for a value `d < 16`. -/
def hexCharUpper (d : Nat) : Char :=
  if d < 10 then Char.ofNat (48 + d) else Char.ofNat (55 + d)

/-- Hex digit list of `n`, most significant first, using digit alphabet
`dig`.  The first argument is fuel; `n` itself is always enough fuel. -/
def toHexAux (dig : Nat → Char) : Nat → Nat → List Char
  | 0, _ => []
  | _ + 1, 0 => []
  | f + 1, n + 1 => toHexAux dig f ((n + 1) / 16) ++ [dig ((n + 1) % 16)]

/-- Format `n` as a lowercase hexadecimal digit string (no prefix). -/
def toHexLower (n : Nat) : List Char :=
  if n = 0 then ['0'] else toHexAux hexCharLower n n

/-- Format `n` as an uppercase hexadecimal digit string (no prefix). -/
def toHexUpper (n : Nat) : List Char :=
  if n = 0 then ['0'] else toHexAux hexCharUpper n n

/-- The exact (unwrapped) positional value of a hex digit string under
`char2int`. -/
def hexval : List Char → Nat
  | [] => 0
  | c :: cs => char2int c * 16 ^ cs.length + hexval cs

/-- Bool test for the three ranges `char2int` recognises. -/
def isHexDigitChar (c : Char) : Bool :=
  (48 ≤ c.toNat && c.toNat ≤ 57) || (65 ≤ c.toNat && c.toNat ≤ 70) ||
    (97 ≤ c.toNat && c.toNat ≤ 102)

/-- Modelled from the spec (§4.4 digit mapping), for comparison with the
source function `char2int`: `'0'..'9' → 0..9`, `'A'..'F' → 10..15`,
`'a'..'f' → 10..15`, anything else `→ 0`. -/
def char2intSpec (c : Char) : Nat :=
  if 48 ≤ c.toNat ∧ c.toNat ≤ 57 then c.toNat - 48
  else if 65 ≤ c.toNat ∧ c.toNat ≤ 70 then 10 + (c.toNat - 65)
  else if 97 ≤ c.toNat ∧ c.toNat ≤ 102 then 10 + (c.toNat - 97)
  else 0

theorem hexaddr2decaddrAux_eq_hexval (ds : List Char) :
    hexaddr2decaddrAux ds = hexval ds % 2 ^ 32 := by
  induction ds with
  | nil => rfl
  | cons c cs ih =>
      simp only [hexaddr2decaddrAux, hexval, ih, Nat.pow_mul]
      conv_rhs => rw [Nat.add_mod]

theorem hexval_append_digit (l : List Char) (c : Char) :
    hexval (l ++ [c]) = 16 * hexval l + char2int c := by
  induction l with
  | nil => simp [hexval]
  | cons x xs ih =>
      simp only [List.cons_append, hexval, ih, List.append_eq, List.length_append,
        List.length_cons, List.length_nil]
      ring

theorem char2int_hexCharLower (d : Nat) (hd : d < 16) :
    char2int (hexCharLower d) = d := by
  interval_cases d <;> decide

theorem char2int_hexCharUpper (d : Nat) (hd : d < 16) :
    char2int (hexCharUpper d) = d := by
  interval_cases d <;> decide

theorem hexval_toHexAux (dig : Nat → Char) (hdig : ∀ d, d < 16 → char2int (dig d) = d) :
    ∀ f n, n ≤ f → hexval (toHexAux dig f n) = n := by
  intro f
  induction f with
  | zero => intro n hn; interval_cases n; rfl
  | succ f ih =>
      intro n hn
      match n with
      | 0 => rfl
      | n + 1 =>
          rw [toHexAux, hexval_append_digit, ih ((n + 1) / 16)
            (by
              have h1 : (n + 1) / 16 < n + 1 := Nat.div_lt_self (Nat.succ_pos n) (by norm_num)
              omega),
            hdig _ (Nat.mod_lt _ (by norm_num))]
          omega

theorem hexval_toHexLower (n : Nat) : hexval (toHexLower n) = n := by
  rw [toHexLower]
  split
  · simp_all [hexval, char2int]
  · exact hexval_toHexAux hexCharLower char2int_hexCharLower n n le_rfl

theorem hexval_toHexUpper (n : Nat) : hexval (toHexUpper n) = n := by
  rw [toHexUpper]
  split
  · simp_all [hexval, char2int]
  · exact hexval_toHexAux hexCharUpper char2int_hexCharUpper n n le_rfl

/-- C5.  Round trip: formatting an integer `n < 2^32` as a hexadecimal
literal with a two-character prefix, in lowercase (`0x...`) or uppercase
(`0X...`, uppercase digits), and parsing the result with `hexaddr2decaddr`
reproduces `n`. -/
theorem hexaddr2decaddr_roundtrip (n : Nat) (hn : n < 2 ^ 32) :
    hexaddr2decaddr ('0' :: 'x' :: toHexLower n) = n ∧
      hexaddr2decaddr ('0' :: 'X' :: toHexUpper n) = n := by
  constructor
  · rw [hexaddr2decaddr]
    simp only [List.drop_succ_cons, List.drop_zero]
    rw [hexaddr2decaddrAux_eq_hexval, hexval_toHexLower, Nat.mod_eq_of_lt hn]
  · rw [hexaddr2decaddr]
    simp only [List.drop_succ_cons, List.drop_zero]
    rw [hexaddr2decaddrAux_eq_hexval, hexval_toHexUpper, Nat.mod_eq_of_lt hn]

/-- Witness for C5 at the concrete input `0xDEADBEEF`. -/
theorem hexaddr2decaddr_roundtrip_witness :
    hexaddr2decaddr ('0' :: 'x' :: toHexLower 3735928559) = 3735928559 ∧
      hexaddr2decaddr ('0' :: 'X' :: toHexUpper 3735928559) = 3735928559 :=
  hexaddr2decaddr_roundtrip 3735928559 (by norm_num)

theorem char2int_not_hex (c : Char) (h : isHexDigitChar c = false) :
    char2int c = 0 := by
  rw [char2int]
  simp only [isHexDigitChar, Bool.or_eq_false_iff, Bool.and_eq_false_iff,
    decide_eq_false_iff_not, not_le] at h
  split_ifs <;> omega

theorem hexaddr2decaddrAux_map_sanitize (ds : List Char) :
    hexaddr2decaddrAux (ds.map fun c => if isHexDigitChar c then c else '0') =
      hexaddr2decaddrAux ds := by
  induction ds with
  | nil => rfl
  | cons c cs ih =>
      simp only [List.map_cons, hexaddr2decaddrAux, ih, List.length_map]
      congr 2
      split
      · rfl
      · rw [char2int_not_hex c (by simp_all)]; rfl

/-- C6.  The digit conversion `char2int` agrees with the spec mapping
(`'0'..'9' → 0..9`, `'A'..'F' → 10..15`, `'a'..'f' → 10..15`, everything
else `→ 0`, silently), and consequently parsing a string with non-hex
characters yields exactly the value obtained by first replacing every
non-hex character by the zero digit. -/
theorem char2int_spec_and_sanitize :
    (∀ c : Char, char2int c = char2intSpec c) ∧
      (∀ s : List Char,
        hexaddr2decaddr (s.map fun c => if isHexDigitChar c then c else '0') =
          hexaddr2decaddr s) := by
  constructor
  · intro c
    rw [char2int, char2intSpec]
    split_ifs <;> omega
  · intro s
    rw [hexaddr2decaddr, hexaddr2decaddr, ← List.map_drop,
      hexaddr2decaddrAux_map_sanitize]

/-! ### Address translator: `showmappings` and the range loop of
`mon_showmappings` -/

/-- Source macro `PTE_ADDR` from `inc/mmu.h`: `(pte) & ~0xFFF`, with `~0xFFF` read at
32-bit width (`0xFFFFF000`). -/
def PTE_ADDR (pte : Nat) : Nat := pte &&& 4294963200

/-- Outcome of one `showmappings` call: either the line reporting the
virtual and (masked) physical address, or the single "No physical page
mapping at ..." line naming the virtual address. -/
inductive MapResult where
  | mapped (va pa : Nat)
  | unmapped (va : Nat)
deriving DecidableEq, Repr

/-- Source function `showmappings` from `kern/monitor.c`.  The external collaborator
`page_lookup(kern_pgdir, va, &pte_entry)` is abstracted as
`lookup : Nat → Option Nat`, returning the stored page-table entry value
when the lookup succeeds. -/
def showmappings (lookup : Nat → Option Nat) (vaddr : Nat) : MapResult :=
  match lookup vaddr with
  | some pte => MapResult.mapped vaddr (PTE_ADDR pte)
  | none => MapResult.unmapped vaddr

theorem PTE_ADDR_eq_clear_low_bits (pte : Nat) (h : pte < 2 ^ 32) :
    PTE_ADDR pte = pte - pte % 2 ^ 12 := by
  have hrw : pte - pte % 2 ^ 12 = (pte >>> 12) <<< 12 := by
    rw [Nat.shiftRight_eq_div_pow, Nat.shiftLeft_eq_mul_pow]
    omega
  rw [hrw, PTE_ADDR]
  apply Nat.eq_of_testBit_eq
  intro i
  have hmask : (4294963200 : Nat) = (2 ^ 20 - 1) <<< 12 := by
    rw [Nat.shiftLeft_eq]
    norm_num
  rw [Nat.testBit_land, hmask, Nat.testBit_shiftLeft, Nat.testBit_shiftLeft,
    Nat.testBit_two_pow_sub_one, Nat.testBit_shiftRight]
  rcases lt_or_le i 12 with hi | hi
  · simp [Nat.not_le.mpr hi]
  · rcases lt_or_le i 32 with hi32 | hi32
    · simp [hi, Nat.lt_sub_iff_add_lt.mpr, Nat.add_sub_cancel' hi]
      omega
    · have : pte.testBit i = false :=
        Nat.testBit_lt_two_pow (lt_of_lt_of_le h (Nat.pow_le_pow_right (by norm_num) hi32))
      simp [hi, this]

/-- C4.  Single-address translation: when the page-table lookup finds an
entry (a 32-bit PTE value), the output is the mapped-line carrying the
queried virtual address and the entry value with its low-12 permission/flag
bits masked off; when the lookup finds nothing, the output is exactly the
"no mapping" report naming that virtual address, with no physical address. -/
theorem showmappings_report (lookup : Nat → Option Nat) (va : Nat) :
    (∀ pte, lookup va = some pte → pte < 2 ^ 32 →
        showmappings lookup va = MapResult.mapped va (pte - pte % 2 ^ 12)) ∧
      (lookup va = none → showmappings lookup va = MapResult.unmapped va) := by
  constructor
  · intro pte hfound hlt
    simp only [showmappings, hfound]
    rw [PTE_ADDR_eq_clear_low_bits pte hlt]
  · intro hnone
    simp only [showmappings, hnone]

/-- Witness for C4: a one-entry page table queried at a mapped and at an
unmapped address. -/
theorem showmappings_report_witness :
    showmappings (fun va => if va = 702464 then some 1193991 else none) 702464 =
        MapResult.mapped 702464 1191936 ∧
      showmappings (fun va => if va = 702464 then some 1193991 else none) 4096 =
        MapResult.unmapped 4096 :=
  ⟨(showmappings_report (fun va => if va = 702464 then some 1193991 else none)
      702464).1 1193991 (by decide) (by norm_num),
    (showmappings_report (fun va => if va = 702464 then some 1193991 else none)
      4096).2 (by decide)⟩

/-- The range-mode loop body of `mon_showmappings`:
`while (low <= high) { showmappings(low); low += PGSIZE; }` with `low` a
`uint32_t` (the increment wraps mod `2^32`).  `fuel`-indexed: `some l`
means the loop finished, visiting exactly the addresses in `l` in order;
`none` means it did not finish within `fuel` iterations. -/
def rangeLoop : Nat → Nat → Nat → Option (List Nat)
  | 0, low, high => if low ≤ high then none else some []
  | fuel + 1, low, high =>
      if low ≤ high then
        (rangeLoop fuel ((low + PGSIZE) % 2 ^ 32) high).map (fun l => low :: l)
      else some []

/-- The range-mode loop terminates on `(low, high)` visiting the address
list `l`. -/
def rangeRuns (low high : Nat) (l : List Nat) : Prop :=
  ∃ fuel, rangeLoop fuel low high = some l

theorem rangeLoop_zero (low high : Nat) :
    rangeLoop 0 low high = if low ≤ high then none else some [] := rfl

theorem rangeLoop_succ (fuel low high : Nat) :
    rangeLoop (fuel + 1) low high =
      if low ≤ high then
        (rangeLoop fuel ((low + PGSIZE) % 2 ^ 32) high).map (fun l => low :: l)
      else some [] := rfl

theorem rangeLoop_mono (high : Nat) :
    ∀ fuel fuel' low l, fuel ≤ fuel' → rangeLoop fuel low high = some l →
      rangeLoop fuel' low high = some l := by
  intro fuel
  induction fuel with
  | zero =>
      intro fuel' low l _ h
      rw [rangeLoop_zero] at h
      by_cases hc : low ≤ high
      · rw [if_pos hc] at h; exact absurd h (by simp)
      · rw [if_neg hc] at h
        cases fuel' with
        | zero => rw [rangeLoop_zero, if_neg hc]; exact h
        | succ g => rw [rangeLoop_succ, if_neg hc]; exact h
  | succ f ih =>
      intro fuel' low l hle h
      rw [rangeLoop_succ] at h
      by_cases hc : low ≤ high
      · rw [if_pos hc] at h
        obtain ⟨l', hl', rfl⟩ := Option.map_eq_some'.mp h
        cases fuel' with
        | zero => omega
        | succ g =>
            rw [rangeLoop_succ, if_pos hc, ih g _ _ (by omega) hl']
            rfl
      · rw [if_neg hc] at h
        cases fuel' with
        | zero => rw [rangeLoop_zero, if_neg hc]; exact h
        | succ g => rw [rangeLoop_succ, if_neg hc]; exact h

theorem rangeRuns_unique (low high : Nat) (l l' : List Nat)
    (h : rangeRuns low high l) (h' : rangeRuns low high l') : l = l' := by
  obtain ⟨f, hf⟩ := h
  obtain ⟨g, hg⟩ := h'
  have h1 := rangeLoop_mono high f (max f g) low l (le_max_left f g) hf
  have h2 := rangeLoop_mono high g (max f g) low l' (le_max_right f g) hg
  rw [h1] at h2
  exact Option.some.inj h2

/-- The addresses range mode visits when it terminates without 32-bit
wrap-around: `low, low + PGSIZE, ..., low + k * PGSIZE` with
`k = (high - low) / PGSIZE`. -/
def rangeExpected (low high : Nat) : List Nat :=
  (List.range ((high - low) / PGSIZE + 1)).map (fun i => low + i * PGSIZE)

theorem rangeMap_cons (a k step : Nat) :
    (List.range (k + 1)).map (fun i => a + i * step) =
      a :: (List.range k).map (fun i => a + step + i * step) := by
  rw [List.range_succ_eq_map, List.map_cons, List.map_map]
  congr 1
  · simp
  · apply List.map_congr_left
    intro i _
    simp only [Function.comp_apply, Nat.succ_eq_add_one]
    ring

theorem rangeExpected_cons (low high : Nat) (h : PGSIZE ≤ high - low) :
    rangeExpected low high = low :: rangeExpected (low + PGSIZE) high := by
  have hp : (0:Nat) < PGSIZE := by norm_num [PGSIZE]
  have h2 : (high - low) / PGSIZE = (high - (low + PGSIZE)) / PGSIZE + 1 := by
    have h1 : high - (low + PGSIZE) = (high - low) - PGSIZE := by omega
    rw [h1]
    exact Nat.div_eq_sub_div hp h
  unfold rangeExpected
  rw [h2]
  exact rangeMap_cons low _ PGSIZE

theorem rangeLoop_exact (high : Nat) (hh : high + PGSIZE < 2 ^ 32) :
    ∀ n low, high - low = n → low ≤ high →
      rangeLoop (n / PGSIZE + 1) low high = some (rangeExpected low high) := by
  intro n
  induction n using Nat.strong_induction_on with
  | _ n ih =>
      intro low hn hlow
      have hp : (0:Nat) < PGSIZE := by norm_num [PGSIZE]
      have hnext : (low + PGSIZE) % 2 ^ 32 = low + PGSIZE :=
        Nat.mod_eq_of_lt (by omega)
      rcases lt_or_le (high - low) PGSIZE with hsmall | hbig
      · have hk : n / PGSIZE = 0 := by rw [← hn]; exact Nat.div_eq_of_lt hsmall
        have hexp : rangeExpected low high = [low] := by
          rw [rangeExpected, Nat.div_eq_of_lt hsmall]
          simp [List.range_succ]
        rw [hk, hexp, rangeLoop_succ, if_pos hlow, hnext, rangeLoop_zero,
          if_neg (by omega), Option.map_some']
      · have hple : PGSIZE ≤ n := by omega
        have hn1 : n / PGSIZE = (high - (low + PGSIZE)) / PGSIZE + 1 := by
          have h1 : high - (low + PGSIZE) = n - PGSIZE := by omega
          rw [h1]
          exact Nat.div_eq_sub_div hp hple
        rw [hn1, rangeLoop_succ, if_pos hlow, hnext,
          ih (high - (low + PGSIZE)) (by omega) (low + PGSIZE) rfl (by omega),
          Option.map_some', rangeExpected_cons low high hbig]

theorem rangeLoop_of_gt (fuel low high : Nat) (h : ¬ low ≤ high) :
    rangeLoop fuel low high = some [] := by
  cases fuel with
  | zero => rw [rangeLoop_zero, if_neg h]
  | succ f => rw [rangeLoop_succ, if_neg h]

/-- With `high = 0xFFFFFFFF` every 32-bit `low` satisfies `low <= high`, so
the loop condition never fails and no amount of fuel finishes the loop. -/
theorem rangeLoop_top_never (fuel : Nat) :
    ∀ low, low < 2 ^ 32 → rangeLoop fuel low 4294967295 = none := by
  induction fuel with
  | zero =>
      intro low h
      rw [rangeLoop_zero, if_pos (by omega)]
  | succ f ih =>
      intro low h
      rw [rangeLoop_succ, if_pos (by omega),
        ih _ (Nat.mod_lt _ (by norm_num))]
      rfl

/-- With `high = 0xFFFFF000` (the largest page-aligned 32-bit address), a
page-aligned `low ≤ high` steps through page-aligned addresses forever:
from `high` itself the wrapped increment lands on `0`, which is again
page-aligned and `≤ high`. -/
theorem rangeLoop_aligned_never (fuel : Nat) :
    ∀ low, low % PGSIZE = 0 → low ≤ 4294963200 →
      rangeLoop fuel low 4294963200 = none := by
  have hPG : PGSIZE = 4096 := rfl
  induction fuel with
  | zero =>
      intro low h1 h2
      rw [rangeLoop_zero, if_pos h2]
  | succ f ih =>
      intro low h1 h2
      rw [rangeLoop_succ, if_pos h2, hPG]
      rw [hPG] at h1
      rcases eq_or_lt_of_le h2 with heq | hlt
      · rw [heq]
        have hwrap : (4294963200 + 4096) % 2 ^ 32 = 0 := by norm_num
        rw [hwrap, ih 0 (by rw [hPG]) (by norm_num)]
        rfl
      · have hstep : low + 4096 ≤ 4294963200 := by omega
        have hmod : (low + 4096) % 2 ^ 32 = low + 4096 :=
          Nat.mod_eq_of_lt (by omega)
        rw [hmod, ih (low + 4096) (by rw [hPG]; omega) hstep]
        rfl

/-- C3 (amended).  Range mode of `mon_showmappings`, provided
`high + PGSIZE < 2^32` so the `uint32_t` stride `low += PGSIZE` never wraps
(otherwise the loop need not terminate, see the wrap-around analysis):
the loop terminates and visits exactly `[]` when `low > high`, and exactly
the addresses `low, low + PGSIZE, ..., low + k·PGSIZE`
(`k = (high - low) / PGSIZE`) when `low ≤ high` — one translation when
`low = high`, and `k + 1` translations, strictly page-size-separated from
the exact unaligned `low`, when `high = low + k·PGSIZE`. -/
theorem mon_showmappings_range_exact (low high : Nat) (hh : high + PGSIZE < 2 ^ 32) :
    ∀ l, rangeRuns low high l ↔ l = if high < low then [] else rangeExpected low high := by
  intro l
  constructor
  · intro hrun
    by_cases hc : low ≤ high
    · rw [if_neg (by omega)]
      exact rangeRuns_unique low high l _ hrun
        ⟨_, rangeLoop_exact high hh (high - low) low rfl hc⟩
    · rw [if_pos (by omega)]
      exact rangeRuns_unique low high l _ hrun ⟨0, rangeLoop_of_gt 0 low high hc⟩
  · intro hl
    subst hl
    by_cases hc : low ≤ high
    · rw [if_neg (by omega)]
      exact ⟨_, rangeLoop_exact high hh (high - low) low rfl hc⟩
    · rw [if_pos (by omega)]
      exact ⟨0, rangeLoop_of_gt 0 low high hc⟩

/-- Witness for C3 at `low = 0`, `high = 2·PGSIZE` (a two-page span):
exactly three translations, at `0`, `4096` and `8192`. -/
theorem mon_showmappings_range_exact_witness :
    rangeRuns 0 8192 [0, 4096, 8192] :=
  (mon_showmappings_range_exact 0 8192 (by norm_num [PGSIZE]) [0, 4096, 8192]).mpr
    (by norm_num [rangeExpected, PGSIZE, List.range_succ])

/-- Counterexample to C3 as stated: at `low = high = 0xFFFFFFFF` the claim
demands exactly one translation, but the wrapped stride keeps the loop
condition true forever, so the loop never terminates and no translation
list is ever completed. -/
theorem mon_showmappings_range_eq_top_no_run :
    ¬ ∃ l, rangeRuns 4294967295 4294967295 l := by
  rintro ⟨l, fuel, hf⟩
  rw [rangeLoop_top_never fuel 4294967295 (by norm_num)] at hf
  exact absurd hf (by simp)

/-- C10 (amended).  Range-mode iteration uses 32-bit wrapping arithmetic:
for `low = 0xFFFFF000`, `high = 0xFFFFFFFF` the stride wraps back below
`high` and the loop never terminates; and for every `high` more than one
page below `2^32` (`high + PGSIZE < 2^32`) the loop terminates for every
`low`. -/
theorem mon_showmappings_wrap (low high : Nat) (hh : high + PGSIZE < 2 ^ 32) :
    (¬ ∃ l, rangeRuns 4294963200 4294967295 l) ∧ ∃ l, rangeRuns low high l := by
  constructor
  · rintro ⟨l, fuel, hf⟩
    rw [rangeLoop_top_never fuel 4294963200 (by norm_num)] at hf
    exact absurd hf (by simp)
  · by_cases hc : low ≤ high
    · exact ⟨_, _, rangeLoop_exact high hh (high - low) low rfl hc⟩
    · exact ⟨[], 0, rangeLoop_of_gt 0 low high hc⟩

/-- Witness for the termination half of C10 at `low = 0`, `high = PGSIZE`. -/
theorem mon_showmappings_wrap_witness : ∃ l, rangeRuns 0 4096 l :=
  (mon_showmappings_wrap 0 4096 (by norm_num [PGSIZE])).2

/-- Counterexample to C10 as stated: `high = 0xFFFFF000` is exactly one
page below `2^32` (so "at least one page below"), yet with
`low = high = 0xFFFFF000` the wrapped stride lands on `0` and climbs back
to `high` forever — the loop does not terminate. -/
theorem mon_showmappings_wrap_counterexample :
    ¬ ∃ l, rangeRuns 4294963200 4294963200 l := by
  rintro ⟨l, fuel, hf⟩
  rw [rangeLoop_aligned_never fuel 4294963200 (by norm_num [PGSIZE]) (by norm_num)] at hf
  exact absurd hf (by simp)

/-! ### Stack unwinder: `mon_backtrace` -/

/-- A 32-bit word load at byte address `a`: the address computation of the
C pointer arithmetic wraps mod `2^32`, and the loaded `uint32_t` value is
below `2^32`. -/
def load (mem : Nat → Nat) (a : Nat) : Nat := mem (a % 2 ^ 32) % 2 ^ 32

/-- The struct `Eipdebuginfo` as delivered by the external resolver
`debuginfo_eip` (`kern/kdebug.h`); only the fields `mon_backtrace` prints. -/
structure Eipdebuginfo where
  eip_file : List Char
  eip_line : Nat
  eip_fn_name : List Char
  eip_fn_namelen : Nat
  eip_fn_addr : Nat
deriving DecidableEq, Repr

/-- Output of one `mon_backtrace` iteration: the `ebp ... eip ... args ...`
line and the `file:line: name+offset` line.  The `args` are the five words
at `ebp+8 .. ebp+24`; `fnName` is the `%.*s` truncation of the resolver
name field; `offset` is the `uint32_t` difference `eip - info.eip_fn_addr`. -/
structure FrameRecord where
  ebp : Nat
  eip : Nat
  args : List Nat
  file : List Char
  line : Nat
  fnName : List Char
  offset : Nat
deriving DecidableEq, Repr

/-- The loop body of `mon_backtrace` at frame pointer `ebp`. -/
def mkFrameRecord (mem : Nat → Nat) (resolver : Nat → Eipdebuginfo) (ebp : Nat) :
    FrameRecord :=
  let eip := load mem (ebp + 4)
  let info := resolver eip
  { ebp := ebp
    eip := eip
    args := [load mem (ebp + 8), load mem (ebp + 12), load mem (ebp + 16),
      load mem (ebp + 20), load mem (ebp + 24)]
    file := info.eip_file
    line := info.eip_line
    fnName := info.eip_fn_name.take info.eip_fn_namelen
    offset := (2 ^ 32 + eip - info.eip_fn_addr % 2 ^ 32) % 2 ^ 32 }

/-- The `while (val_ebp != 0)` loop of `mon_backtrace`, fuel-indexed:
`some recs` means the walk reached the zero frame pointer having emitted
`recs` (innermost frame first); `none` means it did not finish within
`fuel` iterations.  The next frame pointer is the word stored at the
current one (`val_ebp = *((uint32_t*)val_ebp)`). -/
def backtraceFuel (mem : Nat → Nat) (resolver : Nat → Eipdebuginfo) :
    Nat → Nat → Option (List FrameRecord)
  | fuel, ebp =>
    if ebp = 0 then some []
    else
      match fuel with
      | 0 => none
      | f + 1 =>
          (backtraceFuel mem resolver f (load mem ebp)).map
            (fun recs => mkFrameRecord mem resolver ebp :: recs)

/-- The backtrace walk from `ebp` terminates emitting `recs`. -/
def backtraceRuns (mem : Nat → Nat) (resolver : Nat → Eipdebuginfo)
    (ebp : Nat) (recs : List FrameRecord) : Prop :=
  ∃ fuel, backtraceFuel mem resolver fuel ebp = some recs

/-- A synthetic stack: starting at `ebp`, the frames `(e, r)` are chained
through saved frame pointers in `mem` — each frame pointer is the nonzero
32-bit value `e`, the word one machine word above it is the return address
`r`, and the word at it links to the next frame, the last link being `0`. -/
def isChain (mem : Nat → Nat) : Nat → List (Nat × Nat) → Prop
  | ebp, [] => ebp = 0
  | ebp, f :: rest =>
      ebp = f.1 ∧ f.1 ≠ 0 ∧ f.1 < 2 ^ 32 ∧ load mem (f.1 + 4) = f.2 ∧
        isChain mem (load mem f.1) rest

theorem backtraceFuel_zero (mem : Nat → Nat) (resolver : Nat → Eipdebuginfo)
    (fuel : Nat) : backtraceFuel mem resolver fuel 0 = some [] := by
  cases fuel <;> rw [backtraceFuel] <;> rw [if_pos rfl]

theorem backtraceFuel_succ (mem : Nat → Nat) (resolver : Nat → Eipdebuginfo)
    (fuel ebp : Nat) (h : ebp ≠ 0) :
    backtraceFuel mem resolver (fuel + 1) ebp =
      (backtraceFuel mem resolver fuel (load mem ebp)).map
        (fun recs => mkFrameRecord mem resolver ebp :: recs) := by
  rw [backtraceFuel, if_neg h]

theorem backtraceFuel_zero_fuel (mem : Nat → Nat) (resolver : Nat → Eipdebuginfo)
    (ebp : Nat) (h : ebp ≠ 0) : backtraceFuel mem resolver 0 ebp = none := by
  rw [backtraceFuel, if_neg h]

/-- C1.  On a synthetic stack of `N` chained frames ending in a zero frame
pointer, and with a resolver whose function start addresses do not exceed
the queried address, `mon_backtrace` terminates after exactly `N`
iterations and emits exactly `N` frame records, innermost first: record `i`
reports frame pointer `eᵢ`, return address `rᵢ` (the word placed one
machine word above `eᵢ` at construction time), and symbol-line offset
`rᵢ - resolver(rᵢ).eip_fn_addr`. -/
theorem mon_backtrace_chain (mem : Nat → Nat) (resolver : Nat → Eipdebuginfo)
    (frames : List (Nat × Nat)) (ebp0 : Nat) (hchain : isChain mem ebp0 frames)
    (hres : ∀ a, (resolver a).eip_fn_addr ≤ a) :
    ∃ recs, backtraceFuel mem resolver frames.length ebp0 = some recs ∧
      recs.length = frames.length ∧
      recs.map (fun r => r.ebp) = frames.map (fun f => f.1) ∧
      recs.map (fun r => r.eip) = frames.map (fun f => f.2) ∧
      recs.map (fun r => r.offset) =
        frames.map (fun f => f.2 - (resolver f.2).eip_fn_addr) := by
  induction frames generalizing ebp0 with
  | nil =>
      rw [isChain] at hchain
      subst hchain
      exact ⟨[], backtraceFuel_zero mem resolver 0, rfl, rfl, rfl, rfl⟩
  | cons f rest ih =>
      obtain ⟨rfl, hne, hlt, hret, hrest⟩ := hchain
      obtain ⟨recs, hrecs, hlen, hebp, heip, hoff⟩ := ih (load mem f.1) hrest
      refine ⟨mkFrameRecord mem resolver f.1 :: recs, ?_, ?_, ?_, ?_, ?_⟩
      · rw [List.length_cons, backtraceFuel_succ mem resolver rest.length f.1 hne,
          hrecs]
        rfl
      · rw [List.length_cons, List.length_cons, hlen]
      · rw [List.map_cons, List.map_cons, hebp]
        rfl
      · rw [List.map_cons, List.map_cons, heip, mkFrameRecord]
        simp only [hret]
      · rw [List.map_cons, List.map_cons, hoff, mkFrameRecord]
        simp only [hret]
        congr 1
        have heiplt : f.2 < 2 ^ 32 := by
          rw [← hret]; exact Nat.mod_lt _ (by norm_num)
        have hfn := hres f.2
        have hfnlt : (resolver f.2).eip_fn_addr < 2 ^ 32 := lt_of_le_of_lt hfn heiplt
        rw [Nat.mod_eq_of_lt hfnlt]
        omega

/-- Witness for C1: a concrete two-frame synthetic stack. -/
theorem mon_backtrace_chain_witness :
    ∃ recs,
      backtraceFuel
        (fun a =>
          if a = 4096 then 8192 else if a = 4100 then 2730 else
          if a = 8192 then 0 else if a = 8196 then 3003 else 0)
        (fun _ => ⟨[], 0, [], 0, 0⟩)
        ([(4096, 2730), (8192, 3003)] : List (Nat × Nat)).length 4096 = some recs ∧
      recs.length = ([(4096, 2730), (8192, 3003)] : List (Nat × Nat)).length ∧
      recs.map (fun r => r.ebp) =
        ([(4096, 2730), (8192, 3003)] : List (Nat × Nat)).map (fun f => f.1) ∧
      recs.map (fun r => r.eip) =
        ([(4096, 2730), (8192, 3003)] : List (Nat × Nat)).map (fun f => f.2) ∧
      recs.map (fun r => r.offset) =
        ([(4096, 2730), (8192, 3003)] : List (Nat × Nat)).map
          (fun f => f.2 - ((fun _ => (⟨[], 0, [], 0, 0⟩ : Eipdebuginfo)) f.2).eip_fn_addr) :=
  mon_backtrace_chain
    (fun a =>
      if a = 4096 then 8192 else if a = 4100 then 2730 else
      if a = 8192 then 0 else if a = 8196 then 3003 else 0)
    (fun _ => ⟨[], 0, [], 0, 0⟩) [(4096, 2730), (8192, 3003)] 4096
    (by
      refine ⟨rfl, by norm_num, by norm_num, ?_, rfl, by norm_num, by norm_num, ?_, ?_⟩
      · norm_num [load]
      · norm_num [load]
      · rw [isChain]
        norm_num [load])
    (fun a => Nat.zero_le a)

theorem backtraceFuel_reaches_zero (mem : Nat → Nat) (resolver : Nat → Eipdebuginfo) :
    ∀ fuel ebp recs, backtraceFuel mem resolver fuel ebp = some recs →
      ∃ k, (load mem)^[k] ebp = 0 := by
  intro fuel
  induction fuel with
  | zero =>
      intro ebp recs h
      by_cases hz : ebp = 0
      · exact ⟨0, hz⟩
      · rw [backtraceFuel_zero_fuel mem resolver ebp hz] at h
        exact absurd h (by simp)
  | succ f ih =>
      intro ebp recs h
      by_cases hz : ebp = 0
      · exact ⟨0, hz⟩
      · rw [backtraceFuel_succ mem resolver f ebp hz] at h
        obtain ⟨recs', hr', _⟩ := Option.map_eq_some'.mp h
        obtain ⟨k, hk⟩ := ih (load mem ebp) recs' hr'
        exact ⟨k + 1, by rw [Function.iterate_succ_apply]; exact hk⟩

theorem backtraceFuel_of_reaches_zero (mem : Nat → Nat) (resolver : Nat → Eipdebuginfo) :
    ∀ k ebp, (load mem)^[k] ebp = 0 →
      ∃ recs, backtraceFuel mem resolver k ebp = some recs := by
  intro k
  induction k with
  | zero =>
      intro ebp h
      rw [Function.iterate_zero_apply] at h
      subst h
      exact ⟨[], backtraceFuel_zero mem resolver 0⟩
  | succ k ih =>
      intro ebp h
      by_cases hz : ebp = 0
      · subst hz
        exact ⟨[], backtraceFuel_zero mem resolver (k + 1)⟩
      · rw [Function.iterate_succ_apply] at h
        obtain ⟨recs, hr⟩ := ih (load mem ebp) h
        refine ⟨mkFrameRecord mem resolver ebp :: recs, ?_⟩
        rw [backtraceFuel_succ mem resolver k ebp hz, hr]
        rfl

/-- C2.  The `mon_backtrace` loop terminates if and only if iterating the
saved-frame-pointer step from the starting frame pointer ever reaches `0`
(there is no depth cutoff or cycle detection — a chain that never reaches
zero never finishes at any fuel), and when zero is first reached after `N`
links the walk finishes after exactly `N` iterations, emitting `N`
records. -/
theorem mon_backtrace_termination (mem : Nat → Nat) (resolver : Nat → Eipdebuginfo)
    (ebp0 : Nat) :
    ((∃ recs, backtraceRuns mem resolver ebp0 recs) ↔
        ∃ k, (load mem)^[k] ebp0 = 0) ∧
      (∀ N, (load mem)^[N] ebp0 = 0 → (∀ k, k < N → (load mem)^[k] ebp0 ≠ 0) →
        ∃ recs, backtraceFuel mem resolver N ebp0 = some recs ∧ recs.length = N) := by
  constructor
  · constructor
    · rintro ⟨recs, fuel, hf⟩
      exact backtraceFuel_reaches_zero mem resolver fuel ebp0 recs hf
    · rintro ⟨k, hk⟩
      obtain ⟨recs, hr⟩ := backtraceFuel_of_reaches_zero mem resolver k ebp0 hk
      exact ⟨recs, k, hr⟩
  · intro N
    induction N generalizing ebp0 with
    | zero =>
        intro h0 _
        rw [Function.iterate_zero_apply] at h0
        subst h0
        exact ⟨[], backtraceFuel_zero mem resolver 0, rfl⟩
    | succ N ih =>
        intro h0 hmin
        have hz : ebp0 ≠ 0 := by
          have := hmin 0 (Nat.succ_pos N)
          rwa [Function.iterate_zero_apply] at this
        rw [Function.iterate_succ_apply] at h0
        obtain ⟨recs, hr, hlen⟩ := ih (load mem ebp0) h0 (by
          intro k hk hzero
          exact hmin (k + 1) (by omega) (by rwa [Function.iterate_succ_apply]))
        refine ⟨mkFrameRecord mem resolver ebp0 :: recs, ?_, ?_⟩
        · rw [backtraceFuel_succ mem resolver N ebp0 hz, hr]
          rfl
        · rw [List.length_cons, hlen]

/-- Witness for C2 at a concrete one-frame chain: `mem` is identically `0`,
so the chain from `4096` reaches `0` after one link and the walk emits one
record. -/
theorem mon_backtrace_termination_witness :
    ∃ recs,
      backtraceFuel (fun _ => 0) (fun _ => ⟨[], 0, [], 0, 0⟩) 1 4096 = some recs ∧
        recs.length = 1 :=
  (mon_backtrace_termination (fun _ => 0) (fun _ => ⟨[], 0, [], 0, 0⟩) 4096).2 1
    (by simp [load])
    (by
      intro k hk
      interval_cases k
      simp)

/-! ### Tokenizer and dispatcher: `runcmd` -/

/-- Membership in `WHITESPACE "\t\r\n "` (the `strchr` test of `runcmd`). -/
def isWhitespace (c : Char) : Bool :=
  c = '\t' || c = '\r' || c = '\n' || c = ' '

/-- Modelled from the spec (§4.1/§8 reference split), for comparison with
the tokenizer loop of `runcmd`: the ordered sequence of maximal non-empty
runs of non-whitespace characters.  `cur` accumulates the current run. -/
def splitWsAux : List Char → List Char → List (List Char)
  | cur, [] => if cur.isEmpty then [] else [cur]
  | cur, c :: cs =>
      if isWhitespace c then
        if cur.isEmpty then splitWsAux [] cs else cur :: splitWsAux [] cs
      else splitWsAux (cur ++ [c]) cs

/-- Reference whitespace split of a line. -/
def refTokens (l : List Char) : List (List Char) := splitWsAux [] l

theorem refTokens_cons_ws (c : Char) (cs : List Char) (h : isWhitespace c = true) :
    refTokens (c :: cs) = refTokens cs := by
  rw [refTokens, splitWsAux, if_pos h, refTokens]
  rfl

theorem splitWsAux_acc (q : Char → Bool) (hq : ∀ c, q c = !isWhitespace c) :
    ∀ l cur, cur ≠ [] →
      splitWsAux cur l = (cur ++ l.takeWhile q) :: refTokens (l.dropWhile q) := by
  intro l
  induction l with
  | nil =>
      intro cur hcur
      rw [splitWsAux, if_neg (by simpa using hcur)]
      simp [refTokens, splitWsAux]
  | cons c cs ih =>
      intro cur hcur
      by_cases hc : isWhitespace c
      · rw [splitWsAux, if_pos hc, if_neg (by simpa using hcur),
          List.takeWhile_cons, List.dropWhile_cons, hq c, hc]
        simp only [Bool.not_true, Bool.false_eq_true, if_false, List.append_nil]
        rw [refTokens_cons_ws c cs hc, refTokens]
      · rw [splitWsAux, if_neg hc, ih (cur ++ [c]) (by simp),
          List.takeWhile_cons, List.dropWhile_cons, hq c]
        simp [hc, List.append_assoc]

theorem refTokens_cons_not_ws (c : Char) (cs : List Char)
    (h : isWhitespace c = false) :
    refTokens (c :: cs) =
      (c :: cs.takeWhile (fun x => !isWhitespace x)) ::
        refTokens (cs.dropWhile (fun x => !isWhitespace x)) := by
  rw [refTokens, splitWsAux, if_neg (by simp [h])]
  simp only [List.nil_append]
  rw [splitWsAux_acc (fun x => !isWhitespace x) (fun _ => rfl) cs [c] (by simp)]
  rfl

theorem refTokens_dropWhile_ws (l : List Char) :
    refTokens (l.dropWhile isWhitespace) = refTokens l := by
  induction l with
  | nil => rfl
  | cons c cs ih =>
      by_cases hc : isWhitespace c
      · rw [List.dropWhile_cons, if_pos hc, ih, refTokens_cons_ws c cs hc]
      · rw [List.dropWhile_cons, if_neg hc]

theorem length_dropWhile_le (p : Char → Bool) (l : List Char) :
    (l.dropWhile p).length ≤ l.length := by
  induction l with
  | nil => simp
  | cons c cs ih =>
      rw [List.dropWhile_cons]
      by_cases hc : p c
      · rw [if_pos hc]
        simp only [List.length_cons]
        omega
      · rw [if_neg hc]

/-- The argument-parsing loop of `runcmd`: gobble whitespace (`dropWhile`),
stop at the end of the buffer, otherwise bail out with `none` when the slot
check `argc == MAXARGS-1` fires ("Too many arguments"), or record the token
(the maximal non-whitespace run) and continue past it.  `some argv` is the
parsed argument vector. -/
def tokenize (argc : Nat) (buf : List Char) : Option (List (List Char)) :=
  match hbuf : buf.dropWhile isWhitespace with
  | [] => some []
  | c :: rest =>
      if argc = MAXARGS - 1 then none
      else
        match tokenize (argc + 1) (rest.dropWhile (fun x => !isWhitespace x)) with
        | none => none
        | some ts => some ((c :: rest.takeWhile (fun x => !isWhitespace x)) :: ts)
termination_by buf.length
decreasing_by
  have h1 := length_dropWhile_le (fun x => !isWhitespace x) rest
  have h2 : (c :: rest).length ≤ buf.length := by
    rw [← hbuf]
    exact length_dropWhile_le isWhitespace buf
  simp only [List.length_cons] at h2
  omega

theorem dropWhile_head_not_ws (l : List Char) (c : Char) (rest : List Char)
    (h : l.dropWhile isWhitespace = c :: rest) : isWhitespace c = false := by
  induction l with
  | nil => exact absurd h (by simp)
  | cons x xs ih =>
      rw [List.dropWhile_cons] at h
      by_cases hx : isWhitespace x
      · rw [if_pos hx] at h
        exact ih h
      · rw [if_neg hx] at h
        cases h
        simpa using hx

theorem tokenize_done (argc : Nat) (buf : List Char)
    (h : buf.dropWhile isWhitespace = []) : tokenize argc buf = some [] := by
  rw [tokenize, h]

theorem tokenize_step (argc : Nat) (buf : List Char) (c : Char) (rest : List Char)
    (h : buf.dropWhile isWhitespace = c :: rest) :
    tokenize argc buf =
      if argc = MAXARGS - 1 then none
      else
        match tokenize (argc + 1) (rest.dropWhile (fun x => !isWhitespace x)) with
        | none => none
        | some ts => some ((c :: rest.takeWhile (fun x => !isWhitespace x)) :: ts) := by
  rw [tokenize, h]

/-- The tokenizer characterised by the reference split: with fewer than
`MAXARGS` tokens pending it returns exactly the reference split, and
otherwise it reports overflow. -/
theorem tokenize_eq_refTokens :
    ∀ n buf argc, buf.length = n → argc ≤ MAXARGS - 1 →
      tokenize argc buf =
        if MAXARGS ≤ argc + (refTokens buf).length then none
        else some (refTokens buf) := by
  intro n
  induction n using Nat.strong_induction_on with
  | _ n ih =>
      intro buf argc hn hargc
      cases hbuf : buf.dropWhile isWhitespace with
      | nil =>
          have href : refTokens buf = [] := by
            rw [← refTokens_dropWhile_ws, hbuf]
            rfl
          rw [tokenize_done argc buf hbuf, href]
          simp only [List.length_nil, Nat.add_zero]
          rw [if_neg (by rw [MAXARGS] at *; omega)]
      | cons c rest =>
          have hc : isWhitespace c = false := dropWhile_head_not_ws buf c rest hbuf
          have href : refTokens buf =
              (c :: rest.takeWhile (fun x => !isWhitespace x)) ::
                refTokens (rest.dropWhile (fun x => !isWhitespace x)) := by
            rw [← refTokens_dropWhile_ws, hbuf, refTokens_cons_not_ws c rest hc]
          rw [tokenize_step argc buf c rest hbuf, href]
          by_cases hfull : argc = MAXARGS - 1
          · rw [if_pos hfull]
            rw [if_pos (by rw [MAXARGS] at *; simp only [List.length_cons]; omega)]
          · rw [if_neg hfull]
            have hlt : (rest.dropWhile (fun x => !isWhitespace x)).length < n := by
              have h1 := length_dropWhile_le (fun x => !isWhitespace x) rest
              have h2 : (c :: rest).length ≤ buf.length := by
                rw [← hbuf]
                exact length_dropWhile_le isWhitespace buf
              simp only [List.length_cons] at h2
              omega
            rw [ih _ hlt (rest.dropWhile (fun x => !isWhitespace x)) (argc + 1) rfl
              (by rw [MAXARGS] at *; omega)]
            by_cases hcnt : MAXARGS ≤ argc + 1 +
                (refTokens (rest.dropWhile (fun x => !isWhitespace x))).length
            · rw [if_pos hcnt,
                if_pos (by simp only [List.length_cons]; omega)]
            · rw [if_neg hcnt,
                if_neg (by simp only [List.length_cons]; omega)]

/-- User-visible dispatch events of one `runcmd` invocation. -/
inductive Event where
  | tooManyArgs
  | unknownCmd (name : List Char)
  | invoked (name : List Char)
deriving DecidableEq, Repr

/-- The execution environment a monitor command runs against: the memory
read behind the frame walk, the `read_ebp()` value, the debug-info
resolver, and the page-table lookup. -/
structure Env where
  mem : Nat → Nat
  ebp0 : Nat
  resolver : Nat → Eipdebuginfo
  lookup : Nat → Option Nat

/-- Source function `mon_showmappings` from `kern/monitor.c`: with one address argument
(`argc == 2`) a single translation runs and the handler returns `0`; with
two (`argc == 3`) the range loop runs (fuel-indexed, as it can fail to
terminate) and then the handler returns `0`; any other argument count does
nothing and returns `0`. -/
def mon_showmappings (env : Env) (fuel : Nat) (argv : List (List Char)) :
    Option Int :=
  match argv with
  | [_, _] => some 0
  | [_, a1, a2] =>
      (rangeLoop fuel (hexaddr2decaddr a1) (hexaddr2decaddr a2)).map (fun _ => 0)
  | _ => some 0

/-- Return value of `mon_backtrace`: always `0` whenever its walk terminates. -/
def mon_backtrace (env : Env) (fuel : Nat) : Option Int :=
  (backtraceFuel env.mem env.resolver fuel env.ebp0).map (fun _ => 0)

/-- Source function `runcmd` from `kern/monitor.c`: tokenize the line (overflow prints
"Too many arguments" and returns `0`), return `0` on an empty line, then
match the first token against the command table in registration order
(`help`, `kerninfo`, `backtrace`, `showmappings`), invoking the handler
and propagating its return value, or report an unknown command and return
`0`.  The result pairs the dispatch events with the returned `int`;
`none` means the invoked handler did not terminate within `fuel`. -/
def runcmd (env : Env) (fuel : Nat) (buf : List Char) :
    Option (List Event × Int) :=
  match tokenize 0 buf with
  | none => some ([Event.tooManyArgs], 0)
  | some [] => some ([], 0)
  | some (cmd :: args) =>
      if cmd = "help".data then some ([Event.invoked cmd], 0)
      else if cmd = "kerninfo".data then some ([Event.invoked cmd], 0)
      else if cmd = "backtrace".data then
        (mon_backtrace env fuel).map (fun r => ([Event.invoked cmd], r))
      else if cmd = "showmappings".data then
        (mon_showmappings env fuel (cmd :: args)).map
          (fun r => ([Event.invoked cmd], r))
      else some ([Event.unknownCmd cmd], 0)

/-- C7 (amended).  For every input line whose reference whitespace split
has at most `MAXARGS - 1` tokens, the `runcmd` tokenizer produces exactly
that split — same count and contents, independent of separator run-lengths
— and an all-whitespace (or empty) line yields zero tokens.  (Lines with
`MAXARGS` or more tokens are discarded by the overflow check instead.) -/
theorem runcmd_tokenizer (buf : List Char) :
    ((refTokens buf).length ≤ MAXARGS - 1 → tokenize 0 buf = some (refTokens buf)) ∧
      ((∀ c ∈ buf, isWhitespace c = true) → tokenize 0 buf = some []) := by
  constructor
  · intro hlen
    rw [tokenize_eq_refTokens buf.length buf 0 rfl (by rw [MAXARGS]; omega)]
    rw [if_neg (by rw [MAXARGS] at *; omega)]
  · intro hws
    apply tokenize_done
    rw [List.dropWhile_eq_nil_iff]
    exact hws

/-- Witness for C7 on the concrete line `"ab  cd"`. -/
theorem runcmd_tokenizer_witness :
    tokenize 0 ("ab  cd".data) = some (refTokens ("ab  cd".data)) :=
  (runcmd_tokenizer ("ab  cd".data)).1 (by decide)

/-- Counterexample to C7 as stated: a line of 16 whitespace-separated
tokens, on which the tokenizer aborts with the overflow report instead of
producing the 16-token reference split. -/
theorem runcmd_tokenizer_counterexample :
    (refTokens ("a a a a a a a a a a a a a a a a".data)).length = 16 ∧
      tokenize 0 ("a a a a a a a a a a a a a a a a".data) = none := by
  constructor
  · decide
  · rw [tokenize_eq_refTokens ("a a a a a a a a a a a a a a a a".data).length _ 0 rfl
      (by rw [MAXARGS]; omega)]
    rw [if_pos (by decide)]

/-- C8.  A line whose token count reaches `MAXARGS` (16 or more tokens) is
discarded whole: `runcmd` emits exactly the one "too many arguments"
report, invokes no command handler, and returns the neutral status `0`. -/
theorem runcmd_overflow (env : Env) (fuel : Nat) (buf : List Char)
    (h : MAXARGS ≤ (refTokens buf).length) :
    runcmd env fuel buf = some ([Event.tooManyArgs], 0) := by
  rw [runcmd, tokenize_eq_refTokens buf.length buf 0 rfl (by rw [MAXARGS]; omega),
    if_pos (by omega)]

/-- Witness for C8: the 16-token line against a concrete environment. -/
theorem runcmd_overflow_witness :
    runcmd ⟨fun _ => 0, 0, fun _ => ⟨[], 0, [], 0, 0⟩, fun _ => none⟩ 1
        ("a a a a a a a a a a a a a a a a".data) =
      some ([Event.tooManyArgs], 0) :=
  runcmd_overflow ⟨fun _ => 0, 0, fun _ => ⟨[], 0, [], 0, 0⟩, fun _ => none⟩ 1
    ("a a a a a a a a a a a a a a a a".data) (by decide)

theorem mon_showmappings_ret (env : Env) (fuel : Nat) (argv : List (List Char))
    (r : Int) (h : mon_showmappings env fuel argv = some r) : r = 0 := by
  rcases argv with _ | ⟨a, _ | ⟨b, _ | ⟨c, _ | ⟨d, rest⟩⟩⟩⟩ <;>
    simp only [mon_showmappings] at h
  · exact (Option.some.inj h).symm
  · exact (Option.some.inj h).symm
  · exact (Option.some.inj h).symm
  · obtain ⟨x, hx, hr⟩ := Option.map_eq_some'.mp h
    exact hr.symm
  · exact (Option.some.inj h).symm

theorem mon_backtrace_ret (env : Env) (fuel : Nat) (x : Int)
    (h : mon_backtrace env fuel = some x) : x = 0 := by
  rw [mon_backtrace] at h
  obtain ⟨_, _, hr⟩ := Option.map_eq_some'.mp h
  exact hr.symm

theorem runcmd_eq_of_overflow (env : Env) (fuel : Nat) (buf : List Char)
    (h : tokenize 0 buf = none) :
    runcmd env fuel buf = some ([Event.tooManyArgs], 0) := by
  rw [runcmd, h]

theorem runcmd_eq_of_empty (env : Env) (fuel : Nat) (buf : List Char)
    (h : tokenize 0 buf = some []) : runcmd env fuel buf = some ([], 0) := by
  rw [runcmd, h]

theorem runcmd_eq_of_dispatch (env : Env) (fuel : Nat) (buf : List Char)
    (cmd : List Char) (args : List (List Char))
    (h : tokenize 0 buf = some (cmd :: args)) :
    runcmd env fuel buf =
      (if cmd = "help".data then some ([Event.invoked cmd], 0)
      else if cmd = "kerninfo".data then some ([Event.invoked cmd], 0)
      else if cmd = "backtrace".data then
        (mon_backtrace env fuel).map (fun r => ([Event.invoked cmd], r))
      else if cmd = "showmappings".data then
        (mon_showmappings env fuel (cmd :: args)).map
          (fun r => ([Event.invoked cmd], r))
      else some ([Event.unknownCmd cmd], 0)) := by
  rw [runcmd, h]

/-- C9.  Whenever `runcmd` returns (the fuel embedding returns `some`),
the returned status is non-negative — in fact `0` — on every path:
overflow, empty line, unknown command, and all four built-in handlers.  In
particular no built-in command ever signals the `monitor` REPL loop
(which breaks only on a negative return) to terminate. -/
theorem runcmd_ret (env : Env) (fuel : Nat) (buf : List Char)
    (ev : List Event) (r : Int) (h : runcmd env fuel buf = some (ev, r)) :
    0 ≤ r ∧ r = 0 := by
  have hr : r = 0 := by
    cases htok : tokenize 0 buf with
    | none =>
        rw [runcmd_eq_of_overflow env fuel buf htok] at h
        injection Option.some.inj h with hev hval
        exact hval.symm
    | some argv =>
        cases argv with
        | nil =>
            rw [runcmd_eq_of_empty env fuel buf htok] at h
            injection Option.some.inj h with hev hval
            exact hval.symm
        | cons cmd args =>
            rw [runcmd_eq_of_dispatch env fuel buf cmd args htok] at h
            by_cases h1 : cmd = "help".data
            · rw [if_pos h1] at h
              injection Option.some.inj h with hev hval
              exact hval.symm
            · rw [if_neg h1] at h
              by_cases h2 : cmd = "kerninfo".data
              · rw [if_pos h2] at h
                injection Option.some.inj h with hev hval
                exact hval.symm
              · rw [if_neg h2] at h
                by_cases h3 : cmd = "backtrace".data
                · rw [if_pos h3] at h
                  obtain ⟨x, hx, hpair⟩ := Option.map_eq_some'.mp h
                  have hx0 : x = 0 := mon_backtrace_ret env fuel x hx
                  have hpair' : ([Event.invoked cmd], x) = (ev, r) := hpair
                  injection hpair' with hev hval
                  exact hval ▸ hx0
                · rw [if_neg h3] at h
                  by_cases h4 : cmd = "showmappings".data
                  · rw [if_pos h4] at h
                    obtain ⟨x, hx, hpair⟩ := Option.map_eq_some'.mp h
                    have hx0 : x = 0 :=
                      mon_showmappings_ret env fuel (cmd :: args) x hx
                    have hpair' : ([Event.invoked cmd], x) = (ev, r) := hpair
                    injection hpair' with hev hval
                    exact hval ▸ hx0
                  · rw [if_neg h4] at h
                    injection Option.some.inj h with hev hval
                    exact hval.symm
  exact ⟨hr ▸ le_refl (0:Int), hr⟩

/-- Witness for C9: dispatching the concrete line `"help"` returns `0`. -/
theorem runcmd_ret_witness : (0:Int) ≤ 0 ∧ (0:Int) = 0 :=
  runcmd_ret ⟨fun _ => 0, 0, fun _ => ⟨[], 0, [], 0, 0⟩, fun _ => none⟩ 1
    ("help".data) [Event.invoked ("help".data)] 0
    (by
      have ht : tokenize 0 ("help".data) = some [("help".data)] := by
        rw [tokenize_eq_refTokens ("help".data).length _ 0 rfl (by rw [MAXARGS]; omega)]
        rw [if_neg (by decide)]
        decide
      rw [runcmd_eq_of_dispatch _ 1 ("help".data) ("help".data) [] ht]
      rw [if_pos rfl])

end Monitor
